import Mathlib

/-!
Verification development for the `openai-sdk-codegen` schema-to-type generator
(`openai-sdk-codegen/src/lib.rs`).

The Rust source is shallowly embedded: Rust `String` becomes Lean `String`
(operating on its `data : List Char` where that eases proofs), the
`openapiv3` schema model becomes an inductive family carrying exactly the
fields the generator reads, mutation of the `outputs` vector and the
`nullable` hash set becomes explicit state passing, and fallible code
returns `Except Error`.  Emitted `TokenStream`s are modelled by the
`Output` inductive, which records precisely the information the generator
puts into each emitted item (documentation attributes, identifiers, serde
renames, flatten markers, serializer directives, field/variant order).

External-library behaviour that the generator relies on is modelled as
follows and noted at each definition:
 - `convert_case`'s `ccase!(pascal, ...)` / `ccase!(snake, ...)`: word
   splitting on `_`, `-`, space, lower-to-upper and acronym boundaries,
   then capitalising / lowercasing and rejoining (digit boundaries are not
   default in `convert_case` and are not modelled);
 - `syn::parse_str::<syn::Ident>`: success exactly on strings of Rust
   identifier shape that are not keywords and not `_` (ASCII model);
 - `syn::parse_str::<syn::Type>` and `format_ident!`: modelled as total,
   since the strings the generator passes are built from names that are
   valid type paths whenever generation is meaningful (their failure is a
   panic or a `syn` error on degenerate schema names, which no claim
   exercises);
 - serde's default field naming: the wire name of a struct field with no
   `rename` attribute is its identifier with a leading `r#` stripped
   (`wireNameOfIdent`).
-/

namespace Codegen

/-! ## Basic list-of-char string utilities -/

/-- Split a character list at every occurrence of `c` (the separator is
dropped), mirroring Rust's `str::split(char)`: the empty string yields one
empty segment, and consecutive separators yield empty segments. -/
def splitChar (c : Char) : List Char → List (List Char)
  | [] => [[]]
  | x :: xs =>
    let r := splitChar c xs
    if x = c then [] :: r
    else
      match r with
      | [] => [[x]]
      | w :: ws => (x :: w) :: ws

/-- Join character-list words with a separator word, mirroring
`Vec::join`. -/
def joinSep (sep : List Char) : List (List Char) → List Char
  | [] => []
  | [w] => w
  | w :: ws => w ++ sep ++ joinSep sep ws

/-- Split at the last occurrence of `c`, mirroring Rust's
`str::rsplit_once(char)`: `none` when `c` does not occur, otherwise the
parts strictly before and strictly after the last occurrence. -/
def rsplitOnceChar (c : Char) : List Char → Option (List Char × List Char)
  | [] => none
  | x :: xs =>
    match rsplitOnceChar c xs with
    | some (l, r) => some (x :: l, r)
    | none => if x = c then some ([], xs) else none

/-- Replace every occurrence of the character `a` by `b`, mirroring Rust's
`str::replace(char, str)` for a single-character replacement. -/
def replaceChar (s : String) (a b : Char) : String :=
  ⟨s.data.map (fun c => if c = a then b else c)⟩

/-- Decide whether `pat` is an initial segment of `l`. -/
def leadSegment (pat l : List Char) : Bool :=
  match pat, l with
  | [], _ => true
  | _ :: _, [] => false
  | p :: ps, x :: xs => p = x && leadSegment ps xs

/-- Decide whether `pat` occurs as a contiguous run inside `l`, mirroring
Rust's `str::contains(&str)`. -/
def hasRun (pat : List Char) : List Char → Bool
  | [] => leadSegment pat []
  | x :: xs => leadSegment pat (x :: xs) || hasRun pat xs

/-- Substring containment on strings, mirroring Rust's
`str::contains(&str)`. -/
def containsSubstr (hay pat : String) : Bool :=
  hasRun pat.data hay.data

/-! ## Model of `convert_case` (`ccase!(pascal, _)` and `ccase!(snake, _)`)

`convert_case` splits an identifier into words at its default boundaries
(underscore, hyphen, space, a lowercase letter followed by an uppercase
one, and the acronym boundary: an uppercase letter followed by an
uppercase-then-lowercase pair), then recombines the words according to the
requested case. -/

/-- Delimiter characters among `convert_case`'s default boundaries. -/
def isSepChar (c : Char) : Bool :=
  c = '_' || c = '-' || c = ' '

/-- Case boundary between a previous character `p` and the current
character `c` with lookahead `n`: lower-to-upper, or acronym end. -/
def caseBoundary (p c : Char) (n : Option Char) : Bool :=
  (p.isLower && c.isUpper) || (p.isUpper && c.isUpper && n.elim false Char.isLower)

/-- Split one delimiter-free run into words at case boundaries; `acc`
holds the current word reversed. -/
def splitCaseGo : List Char → List Char → List (List Char)
  | acc, [] => [acc.reverse]
  | [], c :: cs => splitCaseGo [c] cs
  | p :: acc, c :: cs =>
    if caseBoundary p c cs.head? then
      (p :: acc).reverse :: splitCaseGo [c] cs
    else
      splitCaseGo (c :: p :: acc) cs

/-- Split a character list at delimiter characters, keeping (possibly
empty) runs. -/
def splitSeps : List Char → List (List Char)
  | [] => [[]]
  | x :: xs =>
    let r := splitSeps xs
    if isSepChar x then [] :: r
    else
      match r with
      | [] => [[x]]
      | w :: ws => (x :: w) :: ws

/-- The word list of an identifier under `convert_case`'s default
boundaries. -/
def caseWords (l : List Char) : List (List Char) :=
  (((splitSeps l).map (splitCaseGo [])).flatten).filter (fun w => !w.isEmpty)

/-- Capitalise one word: first character uppercased, the rest
lowercased. -/
def capWord : List Char → List Char
  | [] => []
  | c :: cs => c.toUpper :: cs.map Char.toLower

/-- Model of `ccase!(pascal, s)`: capitalise every word and concatenate. -/
def pascalList (l : List Char) : List Char :=
  ((caseWords l).map capWord).flatten

/-- Model of `ccase!(snake, s)`: lowercase every word and join with
underscores. -/
def snakeList (l : List Char) : List Char :=
  joinSep ['_'] ((caseWords l).map (List.map Char.toLower))

/-- String-level `ccase!(snake, s)`. -/
def snake (s : String) : String :=
  ⟨snakeList s.data⟩

/-! ## Naming engine (`format_struct_name`, `format_variant_name`,
`format_field_name`) -/

/-- Embedding of `format_struct_name`: the raw name with `-` replaced by
`_`. -/
def format_struct_name (value : String) : String :=
  replaceChar value '-' '_'

/-- Embedding of `format_variant_name`: split the constant on `.`, split
each segment on `-`, pascal-case each sub-segment, rejoin sub-segments
with `_`, rejoin segments with `_`, and place a `_` in front when the
result starts with a decimal digit. -/
def format_variant_name (value : String) : String :=
  let v := joinSep ['_'] ((splitChar '.' value.data).map (fun seg =>
    joinSep ['_'] ((splitChar '-' seg).map pascalList)))
  match v with
  | c :: _ => if c.isDigit then ⟨'_' :: v⟩ else ⟨v⟩
  | [] => ⟨v⟩

/-- Rust's strict and reserved keywords, which `syn` refuses to parse as a
bare `Ident`. -/
def rustKeywords : List String :=
  ["as", "break", "const", "continue", "crate", "dyn", "else", "enum",
   "extern", "false", "fn", "for", "if", "impl", "in", "let", "loop",
   "match", "mod", "move", "mut", "pub", "ref", "return", "self", "Self",
   "static", "struct", "super", "trait", "true", "type", "unsafe", "use",
   "where", "while", "async", "await", "abstract", "become", "box", "do",
   "final", "macro", "override", "priv", "try", "typeof", "unsized",
   "virtual", "yield"]

/-- First character of a Rust identifier (ASCII model). -/
def isIdentStart (c : Char) : Bool :=
  c.isAlpha || c = '_'

/-- Continuation character of a Rust identifier (ASCII model). -/
def isIdentCont (c : Char) : Bool :=
  c.isAlphanum || c = '_'

/-- Identifier-shaped character list: non-empty, an identifier-start
character followed by continuation characters. -/
def isIdentShape : List Char → Bool
  | [] => false
  | c :: cs => isIdentStart c && cs.all isIdentCont

/-- Model of `syn::parse_str::<syn::Ident>` succeeding: identifier shape,
not the lone underscore, and not a Rust keyword. -/
def isValidIdent (s : String) : Bool :=
  isIdentShape s.data && !(s = "_" : Bool) && !(rustKeywords.contains s)

/-- Embedding of `format_field_name`: the raw property name with `.`
replaced by `_`; when the result does not parse as a bare identifier, the
raw-identifier form `r#...` is used instead. -/
def format_field_name (value : String) : String :=
  let v := replaceChar value '.' '_'
  if isValidIdent v then v else ("r#" ++ v)

/-- Model of serde's default wire naming for a struct field that carries
no `rename` attribute: the field identifier with a leading `r#`
stripped. -/
def wireNameOfIdent (ident : String) : String :=
  match ident.data with
  | 'r' :: '#' :: rest => ⟨rest⟩
  | _ => ident

/-! ## Errors and the reference resolver -/

/-- Embedding of the `Error` cases reachable from schema expansion.  The
remaining variants of the Rust `Error` enum (`ExpectedStringLiteral`,
`Var`, `ReadFile`, `DeserializeOpenAPI`) concern the I/O front end of
`try_generate`, which is outside the pure expansion modelled here; the
`Syn` variant is unreachable in the model because `syn` type parsing is
modelled as total (see the header). -/
inductive Error where
  | invalidReference (reference : String)
deriving DecidableEq, Repr

/-- Embedding of `parse_reference`: split at the last `/`; accept exactly
when the part before it is `#/components/schemas`, returning the trailing
name. -/
def parse_reference (value : String) : Except Error String :=
  match rsplitOnceChar '/' value.data with
  | some (l, r) =>
    if l = ("#/components/schemas").data then .ok ⟨r⟩
    else .error (.invalidReference value)
  | none => .error (.invalidReference value)

/-! ## The schema model

The inductive family mirrors the `openapiv3` types as read by the
generator: `SchemaData` keeps only the fields the generator consumes
(`title`, `description`, `nullable`); `SchemaKind.any` keeps the `typ` and
`any_of` fields of `AnySchema` (the only ones consulted, via
`is_null_object` and `expand_schema`); `SchemaKind.notKind` stands for
`SchemaKind::Not`, and `SchemaKind.oneOf` for `SchemaKind::OneOf`, both of
which fall into the generator's catch-all arm.  `StringType.enumeration`
is a `Vec<Option<String>>` in `openapiv3` (a JSON `null` inside an `enum`
list deserialises to `None`), hence `List (Option String)`.
`IntegerType.minimum` is an `Option<i64>`, hence `Option Int`. -/

/-- The parts of `openapiv3::SchemaData` the generator reads. -/
structure SchemaData where
  title : Option String
  description : Option String
  nullable : Bool
deriving Repr

mutual

/-- Embedding of `openapiv3::Schema`. -/
inductive Schema : Type where
  | mk (data : SchemaData) (kind : SchemaKind)

/-- Embedding of `openapiv3::SchemaKind` together with the inner
`openapiv3::Type`, flattened into one inductive. -/
inductive SchemaKind : Type where
  | string (enumeration : List (Option String))
  | number
  | integer (minimum : Option Int)
  | boolean
  | array (items : Option RefOrSchema)
  | object (properties : List (String × RefOrSchema)) (required : List String)
  | oneOf (branches : List RefOrSchema)
  | anyOf (branches : List RefOrSchema)
  | allOf (branches : List RefOrSchema)
  | any (typ : Option String) (anyOfBranches : List RefOrSchema)
  | notKind (inner : RefOrSchema)

/-- Embedding of `openapiv3::ReferenceOr<Schema>`. -/
inductive RefOrSchema : Type where
  | reference (reference : String)
  | item (s : Schema)

end

/-- The `schema_data` of a schema. -/
def Schema.data : Schema → SchemaData
  | .mk d _ => d

/-- The `schema_kind` of a schema. -/
def Schema.kind : Schema → SchemaKind
  | .mk _ k => k

/-! ## The output model

One `Output` is one `TokenStream` pushed onto the `outputs` vector.  Every
semantically relevant token the generator emits is recorded: attribute
lists keep document order, `Variant.rename` is the `#[serde(rename)]`
wire string of a bare enum constant (reference-payload variants carry
none), `Field.serdeWith` is the full `#[serde(with = ...)]` argument
string, and `Field.flatten` records a `#[serde(flatten)]` marker.  The
`#[derive(Debug, Deserialize, Serialize)]` and `pub` tokens are identical
on every emitted item and are not repeated in the model. -/

/-- One variant of an emitted `enum`. -/
structure Variant where
  rename : Option String
  ident : String
  payload : Option String
deriving DecidableEq, Repr

/-- One field of an emitted `struct`. -/
structure Field where
  docs : List String
  serdeWith : Option String
  flatten : Bool
  ident : String
  type : String
deriving DecidableEq, Repr

/-- One emitted item. -/
inductive Output where
  | enumDef (attrs : List String) (ident : String) (variants : List Variant)
  | structDef (attrs : List String) (ident : String) (fields : List Field)
  | vecAlias (attrs : List String) (ident : String) (item : String)
  | boolAlias (attrs : List String) (ident : String)
deriving DecidableEq, Repr

/-- The variant list of an emitted item (empty for non-enums). -/
def Output.variantsOf : Output → List Variant
  | .enumDef _ _ vs => vs
  | _ => []

/-! ## Expansion -/

/-- Embedding of `build_schema_doc`: a `#[doc]` attribute for the title,
then one for the description, each when present. -/
def build_schema_doc (schema : Schema) : List String :=
  schema.data.title.toList ++ schema.data.description.toList

/-- Embedding of `is_null_object`: an `Any`-kind schema whose `typ` is
exactly `"null"`. -/
def is_null_object (schema : Schema) : Bool :=
  match schema with
  | .mk _ (.any typ _) => typ = some ("null")
  | _ => false

/-- Insertion into the `nullable` `HashSet<String>`, modelled as a
duplicate-free list: membership is the only consumed property, and the
model appends on first insertion. -/
def insertNullable (nullable : List String) (name : String) : List String :=
  if name ∈ nullable then nullable else nullable ++ [name]

/-- The enumeration of an inline string-kind schema, mirroring the
source's `if let SchemaKind::Type(Type::String(string)) = &item.schema_kind`
guard. -/
def stringEnumeration : Schema → Option (List (Option String))
  | .mk _ (.string enumeration) => some enumeration
  | _ => none

/-- The bare enum variant emitted for one enumerated string constant:
`#[serde(rename = name)]` followed by `format_variant_name(name)`. -/
def bareVariant (name : String) : Variant :=
  { rename := some name, ident := format_variant_name name, payload := none }

/-- Embedding of `expand_string`: push an enum whose variants are the
`Some` entries of the enumeration, in order, as bare renamed variants
(`filter_map(|x| x.as_ref().map(..))` in the source).  The Rust function
returns `Result` but has no failing path. -/
def expand_string (outputs : List Output) (ident : String) (doc : List String)
    (enumeration : List (Option String)) : List Output :=
  outputs ++ [.enumDef doc ident ((enumeration.filterMap id).map bareVariant)]

/-- The branch loop of `expand_any_of`, threading the `nullable` set, the
`attrs` vector and the `variants` vector exactly as the Rust `for` loop
does.  A null-object inline branch inserts the owning schema's raw name
into `nullable` and is skipped; an inline string branch with a non-empty
enumeration extends `attrs` with that branch's documentation and flattens
its constants as bare variants; any other inline branch is skipped; a
reference branch resolves the reference (failing fatally on an invalid
one) and pushes one payload variant named by `format_struct_name` of the
resolved name. -/
def expand_any_of_go (schema_name : String) :
    List RefOrSchema → List String → List String → List Variant →
    Except Error (List String × List String × List Variant)
  | [], nullable, attrs, variants => .ok (nullable, attrs, variants)
  | b :: rest, nullable, attrs, variants =>
    match b with
    | .item item =>
      if is_null_object item then
        expand_any_of_go schema_name rest (insertNullable nullable schema_name) attrs variants
      else
        match stringEnumeration item with
        | some enumeration =>
          if enumeration.isEmpty then
            expand_any_of_go schema_name rest nullable attrs variants
          else
            expand_any_of_go schema_name rest nullable (attrs ++ build_schema_doc item)
              (variants ++ (enumeration.filterMap id).map bareVariant)
        | none => expand_any_of_go schema_name rest nullable attrs variants
    | .reference reference =>
      match parse_reference reference with
      | .error e => .error e
      | .ok rname =>
        let name := format_struct_name rname
        expand_any_of_go schema_name rest nullable attrs
          (variants ++ [{ rename := none, ident := name, payload := some name }])

/-- Embedding of `expand_any_of`: run the branch loop starting from the
caller-provided attributes and an empty variant list, then push one enum
named `format_struct_name(schema_name)`. -/
def expand_any_of (outputs : List Output) (nullable : List String)
    (schema_name : String) (attrs : List String) (any_of : List RefOrSchema) :
    Except Error (List Output × List String) :=
  match expand_any_of_go schema_name any_of nullable attrs [] with
  | .error e => .error e
  | .ok (nullable', attrs', variants) =>
    .ok (outputs ++ [.enumDef attrs' (format_struct_name schema_name) variants], nullable')

/-- The branch loop of `expand_all_of`: inline branches contribute
nothing; each reference branch contributes one flattened field whose name
is the snake case of `format_struct_name` of the resolved name and whose
type is that resolved name. -/
def expand_all_of_go : List RefOrSchema → Except Error (List Field)
  | [] => .ok []
  | .item _ :: rest => expand_all_of_go rest
  | .reference reference :: rest =>
    match parse_reference reference with
    | .error e => .error e
    | .ok rname =>
      let name := format_struct_name rname
      match expand_all_of_go rest with
      | .error e => .error e
      | .ok fields =>
        .ok ({ docs := [], serdeWith := none, flatten := true,
               ident := snake name, type := name } :: fields)

/-- Embedding of `expand_all_of`: run the branch loop and push one struct
with the collected flattened fields.  `expand_schema` passes no
documentation to it, so the struct's attribute list is empty. -/
def expand_all_of (outputs : List Output) (ident : String)
    (all_of : List RefOrSchema) : Except Error (List Output) :=
  match expand_all_of_go all_of with
  | .error e => .error e
  | .ok fields => .ok (outputs ++ [.structDef [] ident fields])

/-! ### Object expansion -/

/-- The in-loop field record of `expand_object` (the local `struct Field`
of the Rust source, renamed to avoid clashing with the emitted-field
model): raw property name, target type string, declared nullability,
optional serializer, and the property's documentation attributes. -/
structure PreField where
  name : String
  type : String
  nullable : Bool
  serializer : Option String
  attrs : List String
deriving DecidableEq, Repr

/-- Whether the property's description mentions `"timestamp"`:
`matches!(&item.schema_data.description, Some(x) if x.contains("timestamp"))`. -/
def hasTimestampDoc (item : Schema) : Bool :=
  match item.data.description with
  | some x => containsSubstr x ("timestamp")
  | none => false

/-- Rust's `Option<i64>` comparison `minimum > Some(0)`: `None` is smaller
than every `Some`, so this holds exactly for a declared strictly positive
minimum. -/
def minAboveZero (minimum : Option Int) : Bool :=
  match minimum with
  | some m => 0 < m
  | none => false

/-- The inline-property type classification of `expand_object`: a
non-enumerated string maps to `String`, a number to `f64`, an integer to a
timestamp / `u64` / `i64` according to the documentation and minimum, a
boolean to `bool`, and everything else (including an enumerated string,
whose match guard fails) is declined. -/
def inlineFieldType (item : Schema) : Option String :=
  match item.kind with
  | .string enumeration => if enumeration.isEmpty then some ("String") else none
  | .number => some ("f64")
  | .integer minimum =>
    some (if hasTimestampDoc item then ("::chrono::DateTime<::chrono::Utc>")
          else if minAboveZero minimum then ("u64") else ("i64"))
  | .boolean => some ("bool")
  | _ => none

/-- The serializer directive of `expand_object`: attached exactly when the
property is an integer whose documentation mentions `"timestamp"`. -/
def inlineSerializer (item : Schema) : Option String :=
  if hasTimestampDoc item &&
      (match item.kind with | .integer _ => true | _ => false) then
    some ("serde_with::TimestampSeconds<i64>")
  else none

/-- The first loop of `expand_object`: build one `PreField` per
representable property, in document order.  A reference property
contributes its resolved name with `nullable = false`; an inline property
contributes its classified type, declared nullability, serializer and
documentation, or is dropped silently when the classification declines. -/
def buildPreFields : List (String × RefOrSchema) → Except Error (List PreField)
  | [] => .ok []
  | (name, .reference reference) :: rest =>
    match parse_reference reference with
    | .error e => .error e
    | .ok rname =>
      match buildPreFields rest with
      | .error e => .error e
      | .ok pfs =>
        .ok ({ name := name, type := rname, nullable := false,
               serializer := none, attrs := [] } :: pfs)
  | (name, .item item) :: rest =>
    match buildPreFields rest with
    | .error e => .error e
    | .ok pfs =>
      match inlineFieldType item with
      | none => .ok pfs
      | some t =>
        .ok ({ name := name, type := t, nullable := item.data.nullable,
               serializer := inlineSerializer item,
               attrs := build_schema_doc item } :: pfs)

/-- The second loop of `expand_object`: a field's final nullable flag is
its declared flag OR-ed with absence from the `required` list. -/
def adjustRequired (required : List String) (f : PreField) : PreField :=
  { f with nullable := f.nullable || !(required.any (fun x => x = f.name)) }

/-- The emission map of `expand_object`: wrap the type (and the
serializer, when one is present) in `Option<...>` for a nullable field,
render the serializer as the `#[serde(with = "::serde_with::As::<...>")]`
argument, and derive the in-code identifier with `format_field_name`.  No
`#[serde(rename)]` attribute is produced. -/
def finalizeField (f : PreField) : Field :=
  let ftype := if f.nullable then ("Option<" ++ f.type ++ ">") else f.type
  let ser := f.serializer.map (fun s => if f.nullable then ("Option<" ++ s ++ ">") else s)
  { docs := f.attrs,
    serdeWith := ser.map (fun s => "::serde_with::As::<" ++ s ++ ">"),
    flatten := false,
    ident := format_field_name f.name,
    type := ftype }

/-- Embedding of `expand_object`: the three phases above followed by the
push of one struct.  The `properties` and `required` vectors are the two
fields of the Rust `ObjectType` argument. -/
def expand_object (outputs : List Output) (properties : List (String × RefOrSchema))
    (required : List String) (ident : String) (struct_attrs : List String) :
    Except Error (List Output) :=
  match buildPreFields properties with
  | .error e => .error e
  | .ok pfs =>
    .ok (outputs ++
      [.structDef struct_attrs ident ((pfs.map (adjustRequired required)).map finalizeField)])

/-! ### Schema dispatch and array expansion -/

mutual

/-- Embedding of `expand_schema`: compute the item identifier and the
documentation, then dispatch on the schema kind.  String, object, array,
boolean, `anyOf`, `allOf` and `Any`-with-non-empty-`anyOf` schemas are
expanded; every other kind (integer, number, `oneOf`, `not`,
`Any`-with-empty-`anyOf`) falls into a catch-all arm that emits nothing
and raises no error. -/
def expand_schema (outputs : List Output) (nullable : List String)
    (schema_name : String) (schema : Schema) :
    Except Error (List Output × List String) :=
  let ident := format_struct_name schema_name
  let doc := build_schema_doc schema
  match schema with
  | .mk _ kind =>
    match kind with
    | .string enumeration => .ok (expand_string outputs ident doc enumeration, nullable)
    | .object properties required =>
      match expand_object outputs properties required ident doc with
      | .error e => .error e
      | .ok outputs' => .ok (outputs', nullable)
    | .array items => expand_array outputs nullable ident doc items
    | .boolean => .ok (outputs ++ [.boolAlias doc ident], nullable)
    | .anyOf branches => expand_any_of outputs nullable schema_name doc branches
    | .allOf branches =>
      match expand_all_of outputs ident branches with
      | .error e => .error e
      | .ok outputs' => .ok (outputs', nullable)
    | .any _ anyOfBranches =>
      if anyOfBranches.isEmpty then .ok (outputs, nullable)
      else expand_any_of outputs nullable schema_name doc anyOfBranches
    | _ => .ok (outputs, nullable)
termination_by sizeOf schema

/-- Embedding of `expand_array`: no items, no definition; referenced
items resolve to the raw referenced name; inline items first run full
schema expansion under the synthesized name `<ident>Item` and only then is
the alias `type ident = Vec<...>` pushed, so the auxiliary definitions
precede the alias in the output list. -/
def expand_array (outputs : List Output) (nullable : List String)
    (ident : String) (doc : List String) (items : Option RefOrSchema) :
    Except Error (List Output × List String) :=
  match items with
  | none => .ok (outputs, nullable)
  | some (.reference reference) =>
    match parse_reference reference with
    | .error e => .error e
    | .ok rname => .ok (outputs ++ [.vecAlias doc ident rname], nullable)
  | some (.item schema) =>
    match expand_schema outputs nullable (ident ++ "Item") schema with
    | .error e => .error e
    | .ok (outputs', nullable') =>
      .ok (outputs' ++ [.vecAlias doc ident (ident ++ "Item")], nullable')
termination_by sizeOf items

end

/-- The driver loop of `try_generate` over `components.schemas`:
reference entries are skipped (`let ReferenceOr::Item(schema) = .. else
continue`), item entries are expanded in declaration order, and the first
error aborts the whole pass with no output. -/
def generate_schemas : List (String × RefOrSchema) → List Output → List String →
    Except Error (List Output × List String)
  | [], outputs, nullable => .ok (outputs, nullable)
  | (_, .reference _) :: rest, outputs, nullable => generate_schemas rest outputs nullable
  | (name, .item schema) :: rest, outputs, nullable =>
    match expand_schema outputs nullable name schema with
    | .error e => .error e
    | .ok (outputs', nullable') => generate_schemas rest outputs' nullable'

/-- The pure core of `try_generate`: run the driver loop on the named
schema map with empty accumulators. -/
def try_generate (schemas : List (String × RefOrSchema)) :
    Except Error (List Output × List String) :=
  generate_schemas schemas [] []

/-! ## Closed-form characterisations of the loops

These functions give the per-element contribution of each expansion loop;
the lemmas below prove that the loops compute their concatenation. -/

/-- Whether an `anyOf` branch is an inline null-object branch. -/
def isNullBranch : RefOrSchema → Bool
  | .item item => is_null_object item
  | .reference _ => false

/-- The variants one `anyOf` branch contributes: nothing for a null
branch, the flattened bare constants for an inline enumerated string
branch, nothing for any other inline branch, and one payload variant for
a resolvable reference branch. -/
def branchVariants : RefOrSchema → List Variant
  | .item item =>
    if is_null_object item then []
    else
      match stringEnumeration item with
      | some enumeration =>
        if enumeration.isEmpty then [] else (enumeration.filterMap id).map bareVariant
      | none => []
  | .reference reference =>
    match parse_reference reference with
    | .ok rname =>
      [{ rename := none, ident := format_struct_name rname,
         payload := some (format_struct_name rname) }]
    | .error _ => []

/-- The documentation attributes one `anyOf` branch adds to the enclosing
sum type: only a flattened inline enumerated string branch adds its own. -/
def branchAttrs : RefOrSchema → List String
  | .item item =>
    if is_null_object item then []
    else
      match stringEnumeration item with
      | some enumeration =>
        if enumeration.isEmpty then [] else build_schema_doc item
      | none => []
  | .reference _ => []

/-- The field one `allOf` branch contributes: none for an inline branch
or an unresolvable reference, one flattened field otherwise. -/
def allOfField : RefOrSchema → Option Field
  | .item _ => none
  | .reference reference =>
    match parse_reference reference with
    | .ok rname =>
      some { docs := [], serdeWith := none, flatten := true,
             ident := snake (format_struct_name rname),
             type := format_struct_name rname }
    | .error _ => none

/-- The `PreField` one object property contributes in the first loop of
`expand_object`. -/
def preFieldOf : String × RefOrSchema → Option PreField
  | (name, .reference reference) =>
    match parse_reference reference with
    | .ok rname =>
      some { name := name, type := rname, nullable := false,
             serializer := none, attrs := [] }
    | .error _ => none
  | (name, .item item) =>
    (inlineFieldType item).map (fun t =>
      { name := name, type := t, nullable := item.data.nullable,
        serializer := inlineSerializer item, attrs := build_schema_doc item })

/-- Re-inserting an already inserted name leaves the nullable set
unchanged. -/
theorem insertNullable_idem (l : List String) (n : String) :
    insertNullable (insertNullable l n) n = insertNullable l n := by
  by_cases h : n ∈ l
  · simp [insertNullable, h]
  · simp [insertNullable, h]

/-- The `anyOf` branch loop computes, on success, the concatenation of
the per-branch variants and attributes, and inserts the owning schema's
name into the nullable set exactly when some branch is a null branch. -/
theorem expand_any_of_go_ok (schema_name : String) :
    ∀ (branches : List RefOrSchema) (nullable attrs : List String)
      (variants : List Variant) (nl a : List String) (vs : List Variant),
    expand_any_of_go schema_name branches nullable attrs variants = .ok (nl, a, vs) →
    vs = variants ++ branches.flatMap branchVariants ∧
    a = attrs ++ branches.flatMap branchAttrs ∧
    nl = (if branches.any isNullBranch then insertNullable nullable schema_name
          else nullable) := by
  intro branches
  induction branches with
  | nil =>
    intro nullable attrs variants nl a vs h
    simp [expand_any_of_go] at h
    simp [h.1, h.2]
  | cons b rest ih =>
    intro nullable attrs variants nl a vs h
    match b with
    | .reference reference =>
      rw [expand_any_of_go] at h
      cases hpr : parse_reference reference with
      | error e => rw [hpr] at h; exact absurd h (by simp)
      | ok rname =>
        rw [hpr] at h
        obtain ⟨h1, h2, h3⟩ := ih _ _ _ _ _ _ h
        refine ⟨?_, ?_, ?_⟩
        · simp [h1, branchVariants, hpr]
        · simp [h2, branchAttrs]
        · simpa [isNullBranch] using h3
    | .item item =>
      rw [expand_any_of_go] at h
      by_cases hnull : is_null_object item
      · rw [if_pos hnull] at h
        obtain ⟨h1, h2, h3⟩ := ih _ _ _ _ _ _ h
        refine ⟨?_, ?_, ?_⟩
        · simp [h1, branchVariants, hnull]
        · simp [h2, branchAttrs, hnull]
        · simp only [List.any_cons, isNullBranch, hnull, Bool.true_or, if_pos]
          rcases Bool.eq_false_or_eq_true (rest.any isNullBranch) with hr | hr <;>
            simp only [hr, Bool.true_or, if_true, if_false, insertNullable_idem] at h3 ⊢ <;>
            simpa [insertNullable_idem] using h3
      · rw [if_neg hnull] at h
        cases hse : stringEnumeration item with
        | none =>
          rw [hse] at h
          simp only [] at h
          obtain ⟨h1, h2, h3⟩ := ih _ _ _ _ _ _ h
          exact ⟨by simp [h1, branchVariants, hnull, hse],
                 by simp [h2, branchAttrs, hnull, hse],
                 by simpa [isNullBranch, hnull] using h3⟩
        | some enumeration =>
          rw [hse] at h
          by_cases he : enumeration.isEmpty
          · simp only [he, if_true] at h
            obtain ⟨h1, h2, h3⟩ := ih _ _ _ _ _ _ h
            exact ⟨by simp [h1, branchVariants, hnull, hse, he],
                   by simp [h2, branchAttrs, hnull, hse, he],
                   by simpa [isNullBranch, hnull] using h3⟩
          · simp only [he, if_false] at h
            obtain ⟨h1, h2, h3⟩ := ih _ _ _ _ _ _ h
            exact ⟨by simp [h1, branchVariants, hnull, hse, he],
                   by simp [h2, branchAttrs, hnull, hse, he],
                   by simpa [isNullBranch, hnull] using h3⟩

/-- The `allOf` branch loop computes, on success, the concatenation of
the per-branch flattened fields, and succeeds in resolving every
reference branch. -/
theorem expand_all_of_go_ok :
    ∀ (branches : List RefOrSchema) (fs : List Field),
    expand_all_of_go branches = .ok fs →
    fs = branches.filterMap allOfField ∧
    ∀ b ∈ branches, ∀ reference, b = .reference reference → (allOfField b).isSome := by
  intro branches
  induction branches with
  | nil =>
    intro fs h
    simp [expand_all_of_go] at h
    simp [h]
  | cons b rest ih =>
    intro fs h
    match b with
    | .item item =>
      rw [expand_all_of_go] at h
      obtain ⟨h1, h2⟩ := ih _ h
      refine ⟨by simp [h1, allOfField], ?_⟩
      intro b hb reference hbr
      rcases List.mem_cons.mp hb with hb | hb
      · subst hb; cases hbr
      · exact h2 b hb reference hbr
    | .reference reference =>
      rw [expand_all_of_go] at h
      cases hpr : parse_reference reference with
      | error e => rw [hpr] at h; exact absurd h (by simp)
      | ok rname =>
        rw [hpr] at h
        cases hrest : expand_all_of_go rest with
        | error e => rw [hrest] at h; exact absurd h (by simp)
        | ok fields =>
          rw [hrest] at h
          simp only [Except.ok.injEq] at h
          obtain ⟨h1, h2⟩ := ih _ hrest
          refine ⟨?_, ?_⟩
          · simp [← h, h1, allOfField, hpr]
          · intro b hb reference' hbr
            rcases List.mem_cons.mp hb with hb | hb
            · subst hb
              cases hbr
              simp [allOfField, hpr]
            · exact h2 b hb reference' hbr

/-- A `filterMap` whose function succeeds on every element preserves
length. -/
theorem length_filterMap_of_isSome {α β : Type} (f : α → Option β) :
    ∀ l : List α, (∀ x ∈ l, (f x).isSome) → (l.filterMap f).length = l.length := by
  intro l
  induction l with
  | nil => intro _; simp
  | cons x xs ih =>
    intro hall
    have hx := hall x (List.mem_cons_self x xs)
    cases hfx : f x with
    | none => rw [hfx] at hx; cases hx
    | some y =>
      simp only [List.filterMap_cons, hfx, List.length_cons]
      rw [ih (fun z hz => hall z (List.mem_cons_of_mem x hz))]

/-- The first loop of `expand_object` computes, on success, exactly the
per-property `PreField`s. -/
theorem buildPreFields_ok :
    ∀ (properties : List (String × RefOrSchema)) (pfs : List PreField),
    buildPreFields properties = .ok pfs →
    pfs = properties.filterMap preFieldOf := by
  intro properties
  induction properties with
  | nil =>
    intro pfs h
    simp [buildPreFields] at h
    simp [h]
  | cons p rest ih =>
    intro pfs h
    match p with
    | (name, .reference reference) =>
      rw [buildPreFields] at h
      cases hpr : parse_reference reference with
      | error e => rw [hpr] at h; exact absurd h (by simp)
      | ok rname =>
        rw [hpr] at h
        cases hrest : buildPreFields rest with
        | error e => rw [hrest] at h; exact absurd h (by simp)
        | ok pfs' =>
          rw [hrest] at h
          simp only [Except.ok.injEq] at h
          simp [← h, ih _ hrest, preFieldOf, hpr]
    | (name, .item item) =>
      rw [buildPreFields] at h
      cases hrest : buildPreFields rest with
      | error e => rw [hrest] at h; exact absurd h (by simp)
      | ok pfs' =>
        rw [hrest] at h
        cases hft : inlineFieldType item with
        | none =>
          rw [hft] at h
          simp only [Except.ok.injEq] at h
          simp [← h, ih _ hrest, preFieldOf, hft]
        | some t =>
          rw [hft] at h
          simp only [Except.ok.injEq] at h
          simp [← h, ih _ hrest, preFieldOf, hft]

/-- `expand_object` emits, on success, exactly one struct holding the
finalised per-property fields, appended to the caller's outputs. -/
theorem expand_object_ok :
    ∀ (outputs : List Output) (properties : List (String × RefOrSchema))
      (required : List String) (ident : String) (struct_attrs : List String)
      (o : List Output),
    expand_object outputs properties required ident struct_attrs = .ok o →
    o = outputs ++ [.structDef struct_attrs ident
      (((properties.filterMap preFieldOf).map (adjustRequired required)).map finalizeField)] := by
  intro outputs properties required ident struct_attrs o h
  rw [expand_object] at h
  cases hb : buildPreFields properties with
  | error e => rw [hb] at h; exact absurd h (by simp)
  | ok pfs =>
    rw [hb] at h
    simp only [Except.ok.injEq] at h
    rw [← h, buildPreFields_ok _ _ hb]

/-- `preFieldOf` keeps the raw property name. -/
theorem preFieldOf_name :
    ∀ (p : String × RefOrSchema) (pf : PreField),
    preFieldOf p = some pf → pf.name = p.1 := by
  intro p pf h
  match p with
  | (name, .reference reference) =>
    cases hpr : parse_reference reference with
    | error e => simp [preFieldOf, hpr] at h
    | ok rname =>
      simp only [preFieldOf, hpr, Option.some.injEq] at h
      simp [← h]
  | (name, .item item) =>
    cases hft : inlineFieldType item with
    | none => simp [preFieldOf, hft] at h
    | some t =>
      simp [preFieldOf, hft] at h
      simp [← h]

/-! ## String-level facts used by the wire-name and reference claims -/

/-- A valid identifier never starts with `r#`, so its serde wire name is
itself. -/
theorem wireNameOfIdent_of_validIdent (s : String) (h : isValidIdent s = true) :
    wireNameOfIdent s = s := by
  unfold wireNameOfIdent
  split
  · next rest heq =>
    exfalso
    have hshape : isIdentShape s.data = true := by
      simp only [isValidIdent, Bool.and_eq_true] at h
      exact h.1.1
    rw [heq] at hshape
    have hcont : isIdentCont '#' = false := by decide
    simp [isIdentShape, List.all_cons, hcont] at hshape
  · rfl

/-- The serde wire name of a raw identifier `r#v` is `v`. -/
theorem wireNameOfIdent_raw (v : String) : wireNameOfIdent ("r#" ++ v) = v := by
  have hd : ("r#" ++ v).data = 'r' :: '#' :: v.data := by simp [String.data_append]
  unfold wireNameOfIdent
  rw [hd]
  rfl

/-- Replacing a character that does not occur is the identity. -/
theorem replaceChar_self (p : String) (a b : Char) (h : a ∉ p.data) :
    replaceChar p a b = p := by
  refine String.ext ?_
  show p.data.map (fun c => if c = a then b else c) = p.data
  conv_rhs => rw [← List.map_id p.data]
  apply List.map_congr_left
  intro c hc
  have hca : c ≠ a := fun hca => h (hca ▸ hc)
  simp [hca]

/-- The serde wire name of an emitted object field is the raw property
name with `.` replaced by `_`, whether or not the raw-identifier fallback
fires. -/
theorem wire_of_format_field_name (p : String) :
    wireNameOfIdent (format_field_name p) = replaceChar p '.' '_' := by
  unfold format_field_name
  by_cases hv : isValidIdent (replaceChar p '.' '_') = true
  · simp only [hv, if_true]
    exact wireNameOfIdent_of_validIdent _ hv
  · simp only [hv, if_false]
    exact wireNameOfIdent_raw _

/-- `rsplit_once` finds nothing exactly when the separator is absent. -/
theorem rsplitOnceChar_none_iff (c : Char) :
    ∀ l : List Char, rsplitOnceChar c l = none ↔ c ∉ l := by
  intro l
  induction l with
  | nil => simp [rsplitOnceChar]
  | cons x xs ih =>
    rw [rsplitOnceChar]
    cases h : rsplitOnceChar c xs with
    | some pr =>
      obtain ⟨p, r⟩ := pr
      have hmem : c ∈ xs := by
        by_contra hc
        rw [ih.mpr hc] at h
        cases h
      simp [hmem]
    | none =>
      have hc := ih.mp h
      by_cases hxc : x = c
      · subst hxc
        simp
      · have hcx : ¬c = x := fun hh => hxc hh.symm
        simp [hxc, hcx, hc]

/-- `rsplit_once` succeeds with `(p, r)` exactly when the input is
`p ++ c :: r` with no later occurrence of `c`. -/
theorem rsplitOnceChar_some_iff (c : Char) :
    ∀ (l p r : List Char),
      rsplitOnceChar c l = some (p, r) ↔ (l = p ++ c :: r ∧ c ∉ r) := by
  intro l
  induction l with
  | nil =>
    intro p r
    constructor
    · intro h; cases h
    · rintro ⟨hl, _⟩
      exact absurd hl.symm (by simp)
  | cons x xs ih =>
    intro p r
    rw [rsplitOnceChar]
    cases h : rsplitOnceChar c xs with
    | some pr =>
      obtain ⟨p', r'⟩ := pr
      have hxs := (ih p' r').mp h
      simp only []
      constructor
      · intro hsome
        simp only [Option.some.injEq, Prod.mk.injEq] at hsome
        obtain ⟨hp, hr⟩ := hsome
        subst hp; subst hr
        exact ⟨by simp [hxs.1], hxs.2⟩
      · rintro ⟨hl, hr⟩
        cases p with
        | nil =>
          exfalso
          simp only [List.nil_append, List.cons.injEq] at hl
          obtain ⟨hx, hxs'⟩ := hl
          have hcmem : c ∈ xs := by rw [hxs.1]; simp
          rw [hxs'] at hcmem
          exact hr hcmem
        | cons y p'' =>
          simp only [List.cons_append, List.cons.injEq] at hl
          obtain ⟨hxy, hxs'⟩ := hl
          have huniq := (ih p'' r).mpr ⟨hxs', hr⟩
          rw [h] at huniq
          simp only [Option.some.injEq, Prod.mk.injEq] at huniq
          obtain ⟨hp1, hp2⟩ := huniq
          subst hxy
          simp [hp1, hp2]
    | none =>
      have hc := (rsplitOnceChar_none_iff c xs).mp h
      by_cases hxc : x = c
      · rw [if_pos hxc]
        subst hxc
        constructor
        · intro hsome
          simp only [Option.some.injEq, Prod.mk.injEq] at hsome
          obtain ⟨hp, hr⟩ := hsome
          subst hp
          subst hr
          exact ⟨by simp, hc⟩
        · rintro ⟨hl, hr⟩
          cases p with
          | nil =>
            simp at hl
            rw [hl]
          | cons y p'' =>
            exfalso
            simp only [List.cons_append, List.cons.injEq] at hl
            obtain ⟨hxy, hxs'⟩ := hl
            have hcmem : x ∈ xs := by rw [hxs']; simp
            exact hc hcmem
      · rw [if_neg hxc]
        constructor
        · intro hfalse; cases hfalse
        · rintro ⟨hl, hr⟩
          exfalso
          cases p with
          | nil =>
            simp only [List.nil_append, List.cons.injEq] at hl
            exact hxc hl.1
          | cons y p'' =>
            simp only [List.cons_append, List.cons.injEq] at hl
            obtain ⟨hxy, hxs'⟩ := hl
            have hcmem : c ∈ xs := by rw [hxs']; simp
            exact hc hcmem

/-- The local prefix, spelled as character data. -/
theorem schemas_path_data :
    ("#/components/schemas/").data = ("#/components/schemas").data ++ ['/'] := by
  decide

/-- `parse_reference` accepts exactly the strings of the form
`#/components/schemas/<Name>` where the name carries no further `/`, and
returns the trailing name. -/
theorem parse_reference_ok_iff (value n : String) :
    parse_reference value = .ok n ↔
      (value = "#/components/schemas/" ++ n ∧ '/' ∉ n.data) := by
  unfold parse_reference
  cases h : rsplitOnceChar '/' value.data with
  | none =>
    have hnone := (rsplitOnceChar_none_iff '/' value.data).mp h
    constructor
    · intro hfalse; cases hfalse
    · rintro ⟨hv, _⟩
      exfalso
      apply hnone
      rw [hv, String.data_append, schemas_path_data]
      simp
  | some pr =>
    obtain ⟨l, r⟩ := pr
    have hsplit := (rsplitOnceChar_some_iff '/' value.data l r).mp h
    by_cases hl : l = ("#/components/schemas").data
    · simp only [if_pos hl]
      constructor
      · intro hok
        simp only [Except.ok.injEq] at hok
        subst hok
        refine ⟨?_, hsplit.2⟩
        apply String.ext
        rw [String.data_append, schemas_path_data, hsplit.1, hl]
        simp
      · rintro ⟨hv, hn⟩
        have h1 : value.data = l ++ '/' :: n.data := by
          rw [hv, String.data_append, schemas_path_data, hl]
          simp
        rw [hsplit.1] at h1
        have h2 := List.append_cancel_left h1
        simp only [List.cons.injEq, true_and] at h2
        rw [h2]
    · simp only [if_neg hl]
      constructor
      · intro hfalse; cases hfalse
      · rintro ⟨hv, hn⟩
        exfalso
        apply hl
        have huniq : rsplitOnceChar '/' value.data =
            some (("#/components/schemas").data, n.data) := by
          apply (rsplitOnceChar_some_iff '/' value.data _ _).mpr
          refine ⟨?_, hn⟩
          rw [hv, String.data_append, schemas_path_data]
          simp
        rw [h] at huniq
        simp only [Option.some.injEq, Prod.mk.injEq] at huniq
        exact huniq.1

/-- `parse_reference` either succeeds or fails with `InvalidReference`
carrying the offending reference string. -/
theorem parse_reference_total (value : String) :
    (∃ n, parse_reference value = .ok n) ∨
      parse_reference value = .error (.invalidReference value) := by
  unfold parse_reference
  cases rsplitOnceChar '/' value.data with
  | none => exact Or.inr rfl
  | some pr =>
    obtain ⟨l, r⟩ := pr
    by_cases hl : l = ("#/components/schemas").data
    · exact Or.inl ⟨⟨r⟩, by simp [hl]⟩
    · exact Or.inr (by simp [hl])

/-- The driver loop splits over list concatenation. -/
theorem generate_schemas_append :
    ∀ (l1 l2 : List (String × RefOrSchema)) (outputs : List Output)
      (nullable : List String),
    generate_schemas (l1 ++ l2) outputs nullable =
      (match generate_schemas l1 outputs nullable with
       | .error e => .error e
       | .ok (o, n) => generate_schemas l2 o n) := by
  intro l1
  induction l1 with
  | nil =>
    intro l2 outputs nullable
    simp [generate_schemas]
  | cons p rest ih =>
    intro l2 outputs nullable
    match p with
    | (name, .reference r) =>
      simp only [List.cons_append, generate_schemas]
      exact ih l2 outputs nullable
    | (name, .item schema) =>
      simp only [List.cons_append, generate_schemas]
      cases h : expand_schema outputs nullable name schema with
      | error e => simp [h]
      | ok res =>
        obtain ⟨o, n⟩ := res
        simp only [h]
        exact ih l2 o n

/-- A fatal expansion error anywhere in the schema list aborts the whole
driver pass with that error: nothing is emitted. -/
theorem generate_schemas_error
    (pre : List (String × RefOrSchema)) (name : String) (schema : Schema)
    (post : List (String × RefOrSchema)) (outputs : List Output)
    (nullable : List String) (o : List Output) (n : List String) (e : Error)
    (h1 : generate_schemas pre outputs nullable = .ok (o, n))
    (h2 : expand_schema o n name schema = .error e) :
    generate_schemas (pre ++ (name, .item schema) :: post) outputs nullable =
      .error e := by
  rw [generate_schemas_append, h1]
  simp only [generate_schemas, h2]

/-! ## Spec-side definitions used by refinement claims -/

/-- Modelled from the spec (4.2, Naming Engine), for comparison with the
code's `format_variant_name`: split the constant on `.` into segments;
split each segment on `-` into sub-segments; convert each sub-segment to
capitalised form — by the spec's own worked example this sends `api_key`
to `ApiKey`, i.e. pascal case; rejoin sub-segments of a segment with `_`;
rejoin segments with `_`; if the result begins with a digit, put `_` in
front. -/
def spec_variant_name (value : String) : String :=
  let segments := (splitChar '.' value.data).map (fun segment =>
    joinSep ['_'] ((splitChar '-' segment).map pascalList))
  let joined := joinSep ['_'] segments
  match joined with
  | c :: _ => if c.isDigit then ⟨'_' :: joined⟩ else ⟨joined⟩
  | [] => ⟨joined⟩

/-- A `filterMap id` ignores entries that are `none`. -/
theorem filterMap_id_filter_isSome {α : Type} :
    ∀ l : List (Option α), (l.filter Option.isSome).filterMap id = l.filterMap id := by
  intro l
  induction l with
  | nil => simp
  | cons x xs ih =>
    cases x with
    | none => simpa using ih
    | some a => simp [ih]

/-! ## The claims -/

/-- Claim C2: for every enumerated string constant the variant-identifier
function produces exactly the two-level renaming the spec prescribes
(split on `.`, split on `-`, capitalise, rejoin with `_` twice, shield a
leading digit with `_`); on `api_key.created` and `api_key.updated` it
yields the identifiers `ApiKey_Created` and `ApiKey_Updated`, and enum
expansion keeps the original strings as the serde wire tags. -/
theorem claim_C2_variant_naming :
    (∀ value : String, format_variant_name value = spec_variant_name value) ∧
    format_variant_name ("api_key.created") = "ApiKey_Created" ∧
    format_variant_name ("api_key.updated") = "ApiKey_Updated" ∧
    expand_string [] ("Test") [] [some ("api_key.created"), some ("api_key.updated")] =
      [.enumDef [] "Test"
        [{ rename := some ("api_key.created"), ident := "ApiKey_Created", payload := none },
         { rename := some ("api_key.updated"), ident := "ApiKey_Updated", payload := none }]] := by
  refine ⟨fun value => rfl, by decide, by decide, by decide⟩

/-- Claim C9, counterexample: on the enumeration `[some "a", null]` the
enum expander emits exactly one variant — the explicit null entry is
dropped, not kept, so the emitted variants are not in bijection with the
enumerated entries. -/
theorem claim_C9_counterexample :
    expand_string [] ("T") [] [some ("a"), none] =
      [.enumDef [] "T" [{ rename := some ("a"), ident := "A", payload := none }]] ∧
    ((expand_string [] ("T") [] [some ("a"), none]).map Output.variantsOf).flatten.length ≠
      [some ("a"), (none : Option String)].length := by
  exact ⟨by decide, by decide⟩

/-- Claim C9, amended: the emitted sum type's variants are exactly the
non-null (`Some`) enumerated constants, in document order, each a bare
tag whose wire string is the original constant and whose identifier is
`format_variant_name` of it; explicit null (`None`) entries are dropped
at this level and produce no variant, while a constant that is the
string `"null"` is kept. -/
theorem claim_C9_enum_constants :
    (∀ (outputs : List Output) (ident : String) (doc : List String)
       (enumeration : List (Option String)),
       expand_string outputs ident doc enumeration =
         expand_string outputs ident doc (enumeration.filter Option.isSome)) ∧
    (∀ enumeration : List (Option String),
       ((enumeration.filterMap id).map bareVariant).map Variant.rename =
         (enumeration.filterMap id).map some ∧
       ((enumeration.filterMap id).map bareVariant).map Variant.ident =
         (enumeration.filterMap id).map format_variant_name) ∧
    (∀ (outputs : List Output) (ident : String) (doc : List String)
       (enumeration : List (Option String)),
       expand_string outputs ident doc enumeration =
         outputs ++ [.enumDef doc ident ((enumeration.filterMap id).map bareVariant)]) ∧
    expand_string [] ("T") [] [some ("null")] =
      [.enumDef [] "T" [{ rename := some ("null"), ident := "Null", payload := none }]] := by
  refine ⟨?_, ?_, fun _ _ _ _ => rfl, by decide⟩
  · intro outputs ident doc enumeration
    unfold expand_string
    rw [filterMap_id_filter_isSome]
  · intro e
    constructor <;> simp [bareVariant]

/-- Claim C10: a top-level named schema of integer or number kind — and
likewise one of `oneOf` or `not` kind, or an any-kind wrapper with an
empty `anyOf` list — produces no definition and no error: the output list
and the nullable registry pass through unchanged. -/
theorem claim_C10_silent_skip :
    (∀ (outputs : List Output) (nullable : List String) (name : String)
       (data : SchemaData) (minimum : Option Int),
       expand_schema outputs nullable name (.mk data (.integer minimum)) =
         .ok (outputs, nullable)) ∧
    (∀ (outputs : List Output) (nullable : List String) (name : String)
       (data : SchemaData),
       expand_schema outputs nullable name (.mk data .number) = .ok (outputs, nullable)) ∧
    (∀ (outputs : List Output) (nullable : List String) (name : String)
       (data : SchemaData) (branches : List RefOrSchema),
       expand_schema outputs nullable name (.mk data (.oneOf branches)) =
         .ok (outputs, nullable)) ∧
    (∀ (outputs : List Output) (nullable : List String) (name : String)
       (data : SchemaData) (inner : RefOrSchema),
       expand_schema outputs nullable name (.mk data (.notKind inner)) =
         .ok (outputs, nullable)) ∧
    (∀ (outputs : List Output) (nullable : List String) (name : String)
       (data : SchemaData) (typ : Option String),
       expand_schema outputs nullable name (.mk data (.any typ [])) =
         .ok (outputs, nullable)) := by
  refine ⟨?_, ?_, ?_, ?_, ?_⟩
  · intro outputs nullable name data minimum
    simp [expand_schema]
  · intro outputs nullable name data
    simp [expand_schema]
  · intro outputs nullable name data branches
    simp [expand_schema]
  · intro outputs nullable name data inner
    simp [expand_schema]
  · intro outputs nullable name data typ
    simp [expand_schema]

/-- The `ServiceTier` example input (from the spec and the crate's own
unit test): a string enum of five constants followed by an inline
`type: "null"` branch. -/
def serviceTierBranches : List RefOrSchema :=
  [.item (.mk ⟨none, none, false⟩
      (.string [some ("auto"), some ("default"), some ("flex"), some ("scale"),
                some ("priority")])),
   .item (.mk ⟨none, none, false⟩ (.any (some ("null")) []))]

/-- The five bare variants expected for `ServiceTier`. -/
def serviceTierVariants : List Variant :=
  [{ rename := some ("auto"), ident := "Auto", payload := none },
   { rename := some ("default"), ident := "Default", payload := none },
   { rename := some ("flex"), ident := "Flex", payload := none },
   { rename := some ("scale"), ident := "Scale", payload := none },
   { rename := some ("priority"), ident := "Priority", payload := none }]

/-- Claim C1: a successful `anyOf` expansion emits exactly one sum type
named after the schema whose variant list is the in-order concatenation
of the per-branch contributions — flattened bare tags for inline string
branches with non-empty enumeration, one newtype payload variant per
reference branch, nothing for a null branch, which instead inserts the
owning schema's name into the nullable registry; on the `ServiceTier`
example this yields exactly the five bare lowercase-tagged variants, no
null variant, and a registry entry. -/
theorem claim_C1_any_of_expansion :
    (∀ (outputs : List Output) (nullable : List String) (schema_name : String)
       (attrs : List String) (branches : List RefOrSchema)
       (o : List Output) (nl : List String),
       expand_any_of outputs nullable schema_name attrs branches = .ok (o, nl) →
       o = outputs ++ [.enumDef (attrs ++ branches.flatMap branchAttrs)
             (format_struct_name schema_name) (branches.flatMap branchVariants)] ∧
       nl = (if branches.any isNullBranch then insertNullable nullable schema_name
             else nullable)) ∧
    expand_any_of [] [] ("ServiceTier") [] serviceTierBranches =
      .ok ([.enumDef [] "ServiceTier" serviceTierVariants], ["ServiceTier"]) := by
  constructor
  · intro outputs nullable schema_name attrs branches o nl h
    cases hgo : expand_any_of_go schema_name branches nullable attrs [] with
    | error e => simp [expand_any_of, hgo] at h
    | ok res =>
      obtain ⟨nl', a', vs⟩ := res
      simp only [expand_any_of, hgo, Except.ok.injEq, Prod.mk.injEq] at h
      obtain ⟨h1, h2⟩ := h
      obtain ⟨hv, ha, hn⟩ :=
        expand_any_of_go_ok schema_name branches nullable attrs [] nl' a' vs hgo
      subst h1
      subst h2
      simp only [List.nil_append] at hv
      rw [hv, ha, hn]
      exact ⟨rfl, rfl⟩
  · rfl

/-- Witness for claim C1: the characterisation applied to the
`ServiceTier` input. -/
theorem claim_C1_witness :
    ([.enumDef [] "ServiceTier" serviceTierVariants] : List Output) =
      [] ++ [.enumDef ([] ++ serviceTierBranches.flatMap branchAttrs)
        (format_struct_name ("ServiceTier")) (serviceTierBranches.flatMap branchVariants)] ∧
    (["ServiceTier"] : List String) =
      (if serviceTierBranches.any isNullBranch
       then insertNullable [] ("ServiceTier") else ([] : List String)) :=
  claim_C1_any_of_expansion.1 [] [] ("ServiceTier") [] serviceTierBranches
    [.enumDef [] "ServiceTier" serviceTierVariants] ["ServiceTier"] (by rfl)

/-- Claim C7: a successful `allOf` expansion emits exactly one product
type whose fields are the in-order per-branch contributions: one
snake-case-named, flattened field per reference branch and nothing for an
inline branch; when every branch is a reference there is exactly one
field per branch; on two references `A`, `B` the result is the two
flattened fields `a`, `b` in that order. -/
theorem claim_C7_all_of_expansion :
    (∀ (outputs : List Output) (ident : String) (branches : List RefOrSchema)
       (o : List Output),
       expand_all_of outputs ident branches = .ok o →
       o = outputs ++ [.structDef [] ident (branches.filterMap allOfField)]) ∧
    (∀ (outputs : List Output) (ident : String) (branches : List RefOrSchema)
       (o : List Output),
       expand_all_of outputs ident branches = .ok o →
       (∀ b ∈ branches, ∃ r, b = .reference r) →
       (branches.filterMap allOfField).length = branches.length) ∧
    (∀ s : Schema, allOfField (.item s) = none) ∧
    expand_all_of [] ("X")
      [.reference ("#/components/schemas/A"), .reference ("#/components/schemas/B")] =
      .ok [.structDef [] "X"
        [{ docs := [], serdeWith := none, flatten := true, ident := "a", type := "A" },
         { docs := [], serdeWith := none, flatten := true, ident := "b", type := "B" }]] := by
  refine ⟨?_, ?_, fun s => rfl, by rfl⟩
  · intro outputs ident branches o h
    cases hgo : expand_all_of_go branches with
    | error e => simp [expand_all_of, hgo] at h
    | ok fields =>
      simp only [expand_all_of, hgo, Except.ok.injEq] at h
      obtain ⟨h1, _⟩ := expand_all_of_go_ok branches fields hgo
      rw [← h, h1]
  · intro outputs ident branches o h hall
    cases hgo : expand_all_of_go branches with
    | error e => simp [expand_all_of, hgo] at h
    | ok fields =>
      obtain ⟨_, h2⟩ := expand_all_of_go_ok branches fields hgo
      apply length_filterMap_of_isSome
      intro b hb
      obtain ⟨r, hr⟩ := hall b hb
      exact h2 b hb r hr

/-- Witness for claim C7: the characterisation applied to the two
references `A` and `B`. -/
theorem claim_C7_witness :
    ([.structDef [] "X"
       [{ docs := [], serdeWith := none, flatten := true, ident := "a", type := "A" },
        { docs := [], serdeWith := none, flatten := true, ident := "b", type := "B" }]] :
      List Output) =
      [] ++ [.structDef [] "X"
        ([.reference ("#/components/schemas/A"),
          .reference ("#/components/schemas/B")].filterMap allOfField)] :=
  claim_C7_all_of_expansion.1 [] ("X")
    [.reference ("#/components/schemas/A"), .reference ("#/components/schemas/B")]
    [.structDef [] "X"
       [{ docs := [], serdeWith := none, flatten := true, ident := "a", type := "A" },
        { docs := [], serdeWith := none, flatten := true, ident := "b", type := "B" }]]
    (by rfl)

/-- Claim C8: an array schema with no item schema produces no definition;
an array with an inline item schema first runs full expansion of the item
under the synthesized name `<ArrayName>Item` and only afterwards appends
the `Vec` alias, so the auxiliary definitions precede the alias in the
output list; on the spec's example — items an inline object with one
integer property `x` — the auxiliary struct `NameItem` is emitted before
the alias `Name = Vec<NameItem>`. -/
theorem claim_C8_array_expansion :
    (∀ (outputs : List Output) (nullable : List String) (ident : String)
       (doc : List String),
       expand_array outputs nullable ident doc none = .ok (outputs, nullable)) ∧
    (∀ (outputs : List Output) (nullable : List String) (ident : String)
       (doc : List String) (schema : Schema) (o1 : List Output) (n1 : List String),
       expand_schema outputs nullable (ident ++ "Item") schema = .ok (o1, n1) →
       expand_array outputs nullable ident doc (some (.item schema)) =
         .ok (o1 ++ [.vecAlias doc ident (ident ++ "Item")], n1)) ∧
    expand_array [] [] ("Name") [] (some (.item (.mk ⟨none, none, false⟩
        (.object [("x", .item (.mk ⟨none, none, false⟩ (.integer none)))] [])))) =
      .ok ([.structDef [] "NameItem"
        [{ docs := [], serdeWith := none, flatten := false, ident := "x",
           type := "Option<i64>" }],
        .vecAlias [] "Name" "NameItem"], []) := by
  refine ⟨?_, ?_, ?_⟩
  · intro outputs nullable ident doc
    simp [expand_array]
  · intro outputs nullable ident doc schema o1 n1 h
    simp [expand_array, h]
  · simp [expand_array, expand_schema, expand_object, buildPreFields, inlineFieldType,
      inlineSerializer, hasTimestampDoc, adjustRequired, finalizeField, expand_string,
      build_schema_doc, Schema.data, Schema.kind, format_struct_name, replaceChar,
      format_field_name, isValidIdent, isIdentShape, isIdentStart, isIdentCont,
      rustKeywords, minAboveZero]

/-- Witness for claim C8: the inline-item clause applied to a concrete
boolean item schema. -/
theorem claim_C8_witness :
    expand_array [] [] ("Name2") [] (some (.item (.mk ⟨none, none, false⟩ .boolean))) =
      .ok ([.boolAlias [] "Name2Item"] ++ [.vecAlias [] "Name2" ("Name2" ++ "Item")], []) :=
  claim_C8_array_expansion.2.1 [] [] ("Name2") [] (.mk ⟨none, none, false⟩ .boolean)
    [.boolAlias [] "Name2Item"] []
    (by simp [expand_schema, build_schema_doc, Schema.data]; decide)

/-- Wrapping a type string in `Option<...>` always changes it. -/
theorem optionWrap_ne (t : String) : ("Option<" ++ t ++ ">") ≠ t := by
  intro h
  have hlen := congrArg String.length h
  rw [String.length_append, String.length_append] at hlen
  have h7 : ("Option<").length = 7 := by decide
  have h1 : (">").length = 1 := by decide
  rw [h7, h1] at hlen
  omega

/-- Claim C3, counterexample: the property `a.b` — required, inline
non-enumerated string — is emitted as identifier `a_b` with no serde
rename, so its serde wire name is `a_b`, not the untransformed original
`a.b`. -/
theorem claim_C3_counterexample :
    expand_object [] [("a.b", .item (.mk ⟨none, none, false⟩ (.string [])))] ["a.b"]
        ("T") [] =
      .ok [.structDef [] "T"
        [{ docs := [], serdeWith := none, flatten := false, ident := "a_b",
           type := "String" }]] ∧
    wireNameOfIdent ("a_b") ≠ "a.b" := by
  exact ⟨rfl, by decide⟩

/-- Claim C3, amended: an emitted field carries no serde rename, so its
wire name equals its in-code identifier with any raw-identifier `r#`
stripped; that is the raw property name with `.` replaced by `_` — equal
to the untransformed original exactly when the property name contains no
`.` (in particular for reserved words, where the escaped form `r#...`
serialises back to the original). -/
theorem claim_C3_amended_wire_names :
    (∀ p : String, wireNameOfIdent (format_field_name p) = replaceChar p '.' '_') ∧
    (∀ p : String, '.' ∉ p.data → wireNameOfIdent (format_field_name p) = p) ∧
    (∀ (outputs : List Output) (properties : List (String × RefOrSchema))
       (required : List String) (ident : String) (struct_attrs : List String)
       (o : List Output),
       expand_object outputs properties required ident struct_attrs = .ok o →
       ∃ fields, o = outputs ++ [.structDef struct_attrs ident fields] ∧
         ∀ f ∈ fields, ∃ p, p ∈ properties.map Prod.fst ∧
           f.ident = format_field_name p ∧
           wireNameOfIdent f.ident = replaceChar p '.' '_') := by
  have hwire : ∀ p : String,
      wireNameOfIdent (format_field_name p) = replaceChar p '.' '_' :=
    wire_of_format_field_name
  refine ⟨hwire, ?_, ?_⟩
  · intro p hp
    rw [hwire p]
    exact replaceChar_self p '.' '_' hp
  · intro outputs properties required ident struct_attrs o h
    refine ⟨_, expand_object_ok outputs properties required ident struct_attrs o h, ?_⟩
    intro f hf
    simp only [List.mem_map] at hf
    obtain ⟨pf, hpf, hfin⟩ := hf
    obtain ⟨pf0, hpf0, hadj⟩ := hpf
    simp only [List.mem_filterMap] at hpf0
    obtain ⟨pr, hpr, hpfOf⟩ := hpf0
    refine ⟨pr.1, List.mem_map_of_mem Prod.fst hpr, ?_, ?_⟩
    · rw [← hfin, ← hadj]
      have hident : (finalizeField (adjustRequired required pf0)).ident =
          format_field_name pf0.name := rfl
      rw [hident, preFieldOf_name pr pf0 hpfOf]
    · rw [← hfin, ← hadj]
      have hident : (finalizeField (adjustRequired required pf0)).ident =
          format_field_name pf0.name := rfl
      rw [hident, preFieldOf_name pr pf0 hpfOf]
      exact hwire pr.1

/-- Witness for claim C3's amended theorem: a dot-free property name
keeps its wire name. -/
theorem claim_C3_witness :
    ('.' ∉ ("speed").data) ∧
      wireNameOfIdent (format_field_name ("speed")) = "speed" :=
  ⟨by decide, claim_C3_amended_wire_names.2.1 ("speed") (by decide)⟩

/-- Claim C4: the reference resolver accepts exactly the strings of the
local form `#/components/schemas/<Name>` (returning the trailing name)
and otherwise fails with `InvalidReference` carrying the reference; such
a failure anywhere aborts the whole driver pass, which then emits no
definitions. -/
theorem claim_C4_reference_resolution :
    (∀ value n : String,
       parse_reference value = .ok n ↔
         (value = "#/components/schemas/" ++ n ∧ '/' ∉ n.data)) ∧
    (∀ value : String,
       (∃ n, parse_reference value = .ok n) ∨
         parse_reference value = .error (.invalidReference value)) ∧
    (∀ (pre : List (String × RefOrSchema)) (name : String) (schema : Schema)
       (post : List (String × RefOrSchema)) (o : List Output) (n : List String)
       (e : Error),
       generate_schemas pre [] [] = .ok (o, n) →
       expand_schema o n name schema = .error e →
       try_generate (pre ++ (name, .item schema) :: post) = .error e) := by
  refine ⟨parse_reference_ok_iff, parse_reference_total, ?_⟩
  intro pre name schema post o n e h1 h2
  exact generate_schemas_error pre name schema post [] [] o n e h1 h2

/-- Witness for claim C4: the resolver characterisation at
`#/components/schemas/Foo`, and a whole pass aborted by the invalid
reference `bogus` inside an `anyOf`. -/
theorem claim_C4_witness :
    (parse_reference ("#/components/schemas/Foo") = .ok ("Foo") ↔
      ("#/components/schemas/Foo" = "#/components/schemas/" ++ "Foo" ∧
        '/' ∉ ("Foo").data)) ∧
    try_generate
        [("X", .item (.mk ⟨none, none, false⟩ (.anyOf [.reference ("bogus")])))] =
      .error (.invalidReference ("bogus")) :=
  ⟨claim_C4_reference_resolution.1 ("#/components/schemas/Foo") ("Foo"),
   claim_C4_reference_resolution.2.2 [] ("X")
     (.mk ⟨none, none, false⟩ (.anyOf [.reference ("bogus")])) [] [] []
     (.invalidReference ("bogus")) (by rfl)
     (by simp [expand_schema, expand_any_of, expand_any_of_go, parse_reference,
               rsplitOnceChar, build_schema_doc, Schema.data])⟩

/-- Claim C5: an inline integer property classifies as an epoch-seconds
timestamp (`chrono` type plus the `TimestampSeconds` codec) when its
description mentions `timestamp`; otherwise as `u64` when the declared
minimum is strictly positive, else as `i64`; the codec is rendered inside
`Option<...>` for a nullable field. -/
theorem claim_C5_integer_classification :
    (∀ (name : String) (data : SchemaData) (minimum : Option Int),
       preFieldOf (name, .item (.mk data (.integer minimum))) =
         some { name := name,
                type := (if hasTimestampDoc (.mk data (.integer minimum)) then
                           ("::chrono::DateTime<::chrono::Utc>")
                         else if minAboveZero minimum then ("u64") else ("i64")),
                nullable := data.nullable,
                serializer := (if hasTimestampDoc (.mk data (.integer minimum)) then
                                 some ("serde_with::TimestampSeconds<i64>")
                               else none),
                attrs := build_schema_doc (.mk data (.integer minimum)) }) ∧
    (∀ (pf : PreField) (sr : String), pf.serializer = some sr →
       (finalizeField pf).serdeWith =
         some ("::serde_with::As::<" ++
           (if pf.nullable then ("Option<" ++ sr ++ ">") else sr) ++ ">")) ∧
    (∀ (outputs : List Output) (name : String) (data : SchemaData)
       (minimum : Option Int) (required : List String) (ident : String)
       (struct_attrs : List String),
       expand_object outputs [(name, .item (.mk data (.integer minimum)))] required
           ident struct_attrs =
         .ok (outputs ++ [.structDef struct_attrs ident
           (([(name, RefOrSchema.item (.mk data (.integer minimum)))].filterMap
               preFieldOf).map (fun pf => finalizeField (adjustRequired required pf)))])) := by
  refine ⟨?_, ?_, ?_⟩
  · intro name data minimum
    by_cases hts : hasTimestampDoc (.mk data (.integer minimum)) <;>
      simp [preFieldOf, inlineFieldType, inlineSerializer, hts, Schema.kind, Schema.data]
  · intro pf sr h
    simp [finalizeField, h]
  · intro outputs name data minimum required ident struct_attrs
    rfl

/-- A concrete nullable timestamp `PreField`, as built for an inline
integer property whose description mentions `timestamp`. -/
def timestampPreField : PreField :=
  { name := "created_at", type := "::chrono::DateTime<::chrono::Utc>",
    nullable := true, serializer := some ("serde_with::TimestampSeconds<i64>"),
    attrs := [] }

/-- Witness for claim C5: the codec-wrapping clause applied to the
concrete nullable timestamp field. -/
theorem claim_C5_witness :
    timestampPreField.serializer = some ("serde_with::TimestampSeconds<i64>") ∧
    (finalizeField timestampPreField).serdeWith =
      some ("::serde_with::As::<" ++
        ("Option<" ++ "serde_with::TimestampSeconds<i64>" ++ ">") ++ ">") :=
  ⟨rfl, claim_C5_integer_classification.2.1 timestampPreField
    ("serde_with::TimestampSeconds<i64>") rfl⟩

/-- Claim C6: a field's final nullable flag is its declared flag OR-ed
with absence from the required list — for a reference-typed property the
declared flag is `false`, so the final flag is exactly `not required` —
and exactly the fields whose final flag holds get an `Option`-wrapped
type. -/
theorem claim_C6_nullability :
    (∀ (required : List String) (pf : PreField),
       (adjustRequired required pf).nullable =
         (pf.nullable || !(required.any (fun x => x = pf.name)))) ∧
    (∀ pf : PreField,
       (finalizeField pf).type =
         (if pf.nullable then ("Option<" ++ pf.type ++ ">") else pf.type)) ∧
    (∀ pf : PreField,
       ((finalizeField pf).type = "Option<" ++ pf.type ++ ">" ↔ pf.nullable = true)) ∧
    (∀ (name reference rname : String),
       parse_reference reference = .ok rname →
       preFieldOf (name, .reference reference) =
         some { name := name, type := rname, nullable := false, serializer := none,
                attrs := [] }) ∧
    (∀ (outputs : List Output) (properties : List (String × RefOrSchema))
       (required : List String) (ident : String) (struct_attrs : List String)
       (o : List Output),
       expand_object outputs properties required ident struct_attrs = .ok o →
       o = outputs ++ [.structDef struct_attrs ident
         (((properties.filterMap preFieldOf).map (adjustRequired required)).map
            finalizeField)]) := by
  refine ⟨fun required pf => rfl, fun pf => rfl, ?_, ?_, expand_object_ok⟩
  · intro pf
    by_cases hb : pf.nullable = true
    · exact ⟨fun _ => hb, fun _ => by simp [finalizeField, hb]⟩
    · have hb' : pf.nullable = false := by simpa using hb
      constructor
      · intro h
        exfalso
        have ht : (finalizeField pf).type = pf.type := by simp [finalizeField, hb']
        rw [ht] at h
        exact optionWrap_ne pf.type h.symm
      · intro h
        exact absurd h hb
  · intro name reference rname h
    simp [preFieldOf, h]

/-- Witness for claim C6: the reference-property clause at a concrete
resolvable reference. -/
theorem claim_C6_witness :
    parse_reference ("#/components/schemas/Z") = .ok ("Z") ∧
    preFieldOf (("f", RefOrSchema.reference ("#/components/schemas/Z"))) =
      some { name := "f", type := "Z", nullable := false, serializer := none,
             attrs := [] } :=
  ⟨rfl, claim_C6_nullability.2.2.2.1 ("f") ("#/components/schemas/Z") ("Z") rfl⟩

end Codegen
